import Mathlib

/-!
Verification of the Universal Committer of `consensus/core/src/universal_committer.rs`.

The committer orchestration (`try_decide`, `try_decide_synced`, `get_leaders`)
is translated directly from the Rust source.  The surrounding data model
(`Slot`, `Block`, `LeaderStatus`, `DecidedLeader`, `Decision`, `TrustedCommit`)
and the interfaces of the external collaborators (`BaseCommitter`, the DAG
state view) live in other crates of the repository and are modelled from the
specification's data-model and external-interface sections.

Rust control flow is modelled as follows: the nested `for` loops of
`try_decide` with their `break 'outer` become the recursions `processRound`
(inner loop over committers, returning a break flag) and `decideLoop` (outer
loop over rounds); the `VecDeque` with `push_front` becomes a `List` with
cons; a `panic!`/failed `assert!`/`unwrap` becomes the `none` result of an
`Option`-valued function, and a normal return becomes `some`.  Machine
integers (`u32` rounds, `usize` budgets and commit indices) are modelled as
`Nat`; the only arithmetic the code performs on them is `saturating_sub`,
comparison and `+ 1`, none of which can overflow in `Nat`.
-/

/-- Modelled from the spec: rounds and authority indices are non-negative
integers, written `Nat` throughout; `GENESIS_ROUND = 0` is a sentinel never
committed. -/
def GENESIS_ROUND : Nat := 0

/-- Modelled from the spec: a slot is a pair `(round, authority)`. -/
structure Slot where
  round : Nat
  authority : Nat
deriving DecidableEq, Repr

/-- Modelled from the spec: an opaque DAG node at a slot.  The committer
orchestration only ever needs the block's slot. -/
structure Block where
  slot : Slot
deriving DecidableEq, Repr

/-- Modelled from the spec: the `LeaderStatus` tagged value (the type lives in
the leader-rule module, outside the given source file). -/
inductive LeaderStatus where
  | Commit (block : Block)
  | Skip (slot : Slot)
  | Undecided (slot : Slot)
deriving DecidableEq, Repr

/-- The slot a status talks about. -/
def LeaderStatus.slot_ : LeaderStatus → Slot
  | .Commit b => b.slot
  | .Skip s => s
  | .Undecided s => s

/-- `LeaderStatus::round()` as used by the emission loop of `try_decide`. -/
def LeaderStatus.round (ls : LeaderStatus) : Nat := ls.slot_.round

/-- `LeaderStatus::is_decided()`: `Commit` and `Skip` are decided. -/
def LeaderStatus.is_decided : LeaderStatus → Bool
  | .Undecided _ => false
  | _ => true

/-- Modelled from the spec: externally visible projection of a decided
status. -/
inductive DecidedLeader where
  | Commit (block : Block)
  | Skip (slot : Slot)
deriving DecidableEq, Repr

/-- `DecidedLeader::slot()`. -/
def DecidedLeader.slot : DecidedLeader → Slot
  | .Commit b => b.slot
  | .Skip s => s

/-- The round of a decided leader. -/
def DecidedLeader.round (d : DecidedLeader) : Nat := d.slot.round

/-- Modelled from the spec: `LeaderStatus::into_decided_leader` projects the
two decided variants and rejects `Undecided`. -/
def LeaderStatus.into_decided_leader : LeaderStatus → Option DecidedLeader
  | .Commit b => some (.Commit b)
  | .Skip s => some (.Skip s)
  | .Undecided _ => none

/-- Provenance tag for metrics, from `commit.rs` (modelled from the spec). -/
inductive Decision where
  | Direct
  | Indirect
  | Synced
deriving DecidableEq, Repr

/-- Modelled from the spec: a `TrustedCommit` carries a monotonically
increasing index and the leader slot it commits. -/
structure TrustedCommit where
  index : Nat
  leader : Slot
deriving DecidableEq, Repr

/-- Modelled from the spec: the read-only view of `DagState` that the
universal committer consumes (spec section on external interfaces). -/
structure DagView where
  highest_accepted_round : Nat
  gc_enabled : Bool
  last_commit_index : Nat
  get_block : Slot → Option Block

/-- Modelled from the spec: one `BaseCommitter` as the universal committer
sees it — the three operations of its interface, with the DAG and schedule it
reads baked in (it holds shared handles to both). -/
structure BaseCommitter where
  elect_leader : Nat → Option Slot
  try_direct_decide : Slot → LeaderStatus
  try_indirect_decide : Slot → List LeaderStatus → LeaderStatus

/-- The universal committer: its ordered list of base committers, and the
protocol-config knob `mysticeti_num_leaders_per_round` it consults. -/
structure UniversalCommitter where
  committers : List BaseCommitter
  mysticeti_num_leaders_per_round : Option Nat

/-- The `last_round` computation at the top of `try_decide`: with a single
leader per round start one past the last decided round, otherwise revisit the
last decided round. -/
def lastRoundOf (numLeaders : Option Nat) (last_decided : Slot) : Nat :=
  match numLeaders with
  | some 1 => last_decided.round + 1
  | _ => last_decided.round

/-- The round window `(lo..=hi).rev()` of `try_decide`, highest first. -/
def roundsDesc (lo hi : Nat) : List Nat :=
  (List.range' lo (hi + 1 - lo)).reverse

/-- One pass of the inner loop of `try_decide` over the (already reversed)
committer list at a fixed `round`.  Returns the updated deque (front = head)
and whether `break 'outer` fired (the elected slot equalled `last_decided`). -/
def processRound (committers : List BaseCommitter) (last_decided : Slot)
    (round : Nat) (acc : List (LeaderStatus × Decision)) :
    List (LeaderStatus × Decision) × Bool :=
  match committers with
  | [] => (acc, false)
  | c :: rest =>
    match c.elect_leader round with
    | none => processRound rest last_decided round acc
    | some slot =>
      if slot = last_decided then (acc, true)
      else
        if (c.try_direct_decide slot).is_decided then
          processRound rest last_decided round
            ((c.try_direct_decide slot, Decision.Direct) :: acc)
        else
          processRound rest last_decided round
            ((c.try_indirect_decide slot (acc.map Prod.fst), Decision.Indirect) :: acc)

/-- The outer loop of `try_decide` over the descending round window,
threading the deque and stopping when the inner loop broke out. -/
def decideLoop (committers : List BaseCommitter) (last_decided : Slot)
    (rounds : List Nat) (acc : List (LeaderStatus × Decision)) :
    List (LeaderStatus × Decision) × Bool :=
  match rounds with
  | [] => (acc, false)
  | r :: rest =>
    match processRound committers last_decided r acc with
    | (acc2, true) => (acc2, true)
    | (acc2, false) => decideLoop committers last_decided rest acc2

/-- The emission loop at the end of `try_decide`: walk the deque front to
back, skip `GENESIS_ROUND` entries, emit decided leaders, stop at the first
`Undecided`. -/
def emitDecided : List (LeaderStatus × Decision) → List DecidedLeader
  | [] => []
  | (leader, _) :: rest =>
    if leader.round = GENESIS_ROUND then emitDecided rest
    else
      match leader.into_decided_leader with
      | none => []
      | some dl => dl :: emitDecided rest

/-- `UniversalCommitter::try_decide`, translated from the source.  The Rust
method takes `&self` and only ever acquires read locks on the DAG, so it is a
pure function of the committer, the DAG view and `last_decided`.  Metrics are
an external consumed sink per the spec and are not modelled. -/
def UniversalCommitter.try_decide (uc : UniversalCommitter) (dag : DagView)
    (last_decided : Slot) : List DecidedLeader :=
  let hi := dag.highest_accepted_round - 2
  let lastRound := lastRoundOf uc.mysticeti_num_leaders_per_round last_decided
  emitDecided (decideLoop uc.committers.reverse last_decided (roundsDesc lastRound hi) []).1

/-- The `while` loop of `try_decide_synced` that pops already-applied commits
off the front of the queue: returns the remaining queue, or `none` when the
gap `panic!` fires. -/
def drainApplied (lastIndex : Nat) : List TrustedCommit → Option (List TrustedCommit)
  | [] => some []
  | c :: rest =>
    if c.index ≤ lastIndex then drainApplied lastIndex rest
    else if c.index ≠ lastIndex + 1 then none
    else some (c :: rest)

/-- The `map`/`collect` over `to_commit` in `try_decide_synced`: resolve each
commit's leader block through the DAG state and wrap it in
`DecidedLeader::Commit`; the `unwrap` on a missing block is the `none` case. -/
def resolveLeaders (dag : DagView) : List TrustedCommit → Option (List DecidedLeader)
  | [] => some []
  | c :: rest =>
    match dag.get_block c.leader with
    | none => none
    | some b =>
      match resolveLeaders dag rest with
      | none => none
      | some ds => some (DecidedLeader.Commit b :: ds)

/-- `UniversalCommitter::try_decide_synced`, translated from the source.  The
Rust method mutates `synced_commits` in place and can `panic!`; here it
returns `some (decided, remaining_queue)` on a normal return and `none` when
the budget assertion, the gap check or the leader-block `unwrap` fails. -/
def UniversalCommitter.try_decide_synced (_uc : UniversalCommitter)
    (dag : DagView) (synced_commits : List TrustedCommit)
    (commits_until_update : Nat) :
    Option (List DecidedLeader × List TrustedCommit) :=
  if !dag.gc_enabled then some ([], synced_commits)
  else if commits_until_update = 0 then none
  else
    match drainApplied dag.last_commit_index synced_commits with
    | none => none
    | some q =>
      if q.isEmpty then some ([], q)
      else
        let to_commit := q.take commits_until_update
        let rest := q.drop commits_until_update
        match resolveLeaders dag to_commit with
        | none => none
        | some sequenced_leaders => some (sequenced_leaders, rest)

/-- `UniversalCommitter::get_leaders`, translated from the source. -/
def UniversalCommitter.get_leaders (uc : UniversalCommitter) (round : Nat) :
    List Nat :=
  (uc.committers.filterMap (fun c => c.elect_leader round)).map Slot.authority

/-! ## Basic facts about the synced-commit drain loop -/

/-- The claim-side description of the drain: discard from the front every
commit whose index is at most the last commit index. -/
def dropApplied (lastIndex : Nat) (q : List TrustedCommit) : List TrustedCommit :=
  q.dropWhile (fun c => c.index ≤ lastIndex)

theorem drainApplied_of_no_gap (lastIndex : Nat) (q : List TrustedCommit)
    (h : ∀ c, (dropApplied lastIndex q).head? = some c → c.index = lastIndex + 1) :
    drainApplied lastIndex q = some (dropApplied lastIndex q) := by
  induction q with
  | nil => rfl
  | cons c rest ih =>
    by_cases hc : c.index ≤ lastIndex
    · have hdw : dropApplied lastIndex (c :: rest) = dropApplied lastIndex rest := by
        simp [dropApplied, List.dropWhile_cons, hc]
      rw [hdw] at h
      simp only [drainApplied, if_pos hc]
      rw [ih h, hdw]
    · have hdw : dropApplied lastIndex (c :: rest) = c :: rest := by
        simp [dropApplied, List.dropWhile_cons, hc]
      have hidx : c.index = lastIndex + 1 := by
        apply h; rw [hdw]; rfl
      simp [drainApplied, hc, hidx, hdw]

theorem drainApplied_of_gap (lastIndex : Nat) (q : List TrustedCommit) (c : TrustedCommit)
    (hhead : (dropApplied lastIndex q).head? = some c)
    (hgap : c.index ≠ lastIndex + 1) :
    drainApplied lastIndex q = none := by
  induction q with
  | nil => simp [dropApplied] at hhead
  | cons d rest ih =>
    by_cases hd : d.index ≤ lastIndex
    · have hdw : dropApplied lastIndex (d :: rest) = dropApplied lastIndex rest := by
        simp [dropApplied, List.dropWhile_cons, hd]
      rw [hdw] at hhead
      simp only [drainApplied, if_pos hd]
      exact ih hhead
    · have hdw : dropApplied lastIndex (d :: rest) = d :: rest := by
        simp [dropApplied, List.dropWhile_cons, hd]
      rw [hdw] at hhead
      have : d = c := by simpa using hhead
      subst this
      simp [drainApplied, hd, hgap]

theorem resolveLeaders_length (dag : DagView) :
    ∀ (l : List TrustedCommit) (l' : List DecidedLeader),
      resolveLeaders dag l = some l' → l'.length = l.length := by
  intro l
  induction l with
  | nil => intro l' h; simp [resolveLeaders] at h; simp [← h]
  | cons c rest ih =>
    intro l' h
    unfold resolveLeaders at h
    cases hb : dag.get_block c.leader with
    | none => rw [hb] at h; simp at h
    | some b =>
      rw [hb] at h
      cases hrest : resolveLeaders dag rest with
      | none => rw [hrest] at h; simp at h
      | some ds =>
        rw [hrest] at h
        simp at h
        rw [← h]
        simp [ih ds hrest]

/-! ## C1: idempotence of `try_decide` -/

/-- One call of `try_decide` with its observable state threaded through
explicitly: the Rust method takes `&self` and only acquires read locks on the
DAG, so the state component passes through unchanged. -/
def tryDecideRun (uc : UniversalCommitter) (dag : DagView) (last_decided : Slot) :
    List DecidedLeader × DagView :=
  (uc.try_decide dag last_decided, dag)

/-- C1: for every DAG state and every `last_decided`, calling `try_decide`
twice in succession against an unchanged DAG returns identical output both
times, and the observable state is unchanged by the calls. -/
theorem c1_try_decide_idempotent (uc : UniversalCommitter) (dag : DagView)
    (last_decided : Slot) :
    (tryDecideRun uc dag last_decided).1 =
      (tryDecideRun uc (tryDecideRun uc dag last_decided).2 last_decided).1
    ∧ (tryDecideRun uc (tryDecideRun uc dag last_decided).2 last_decided).2 = dag :=
  ⟨rfl, rfl⟩

/-! ## C8: the GC check precedes the budget assertion -/

/-- C8: if GC is disabled, `try_decide_synced` returns the empty list without
failing — even with budget `0` — and leaves the queue untouched. -/
theorem c8_gc_disabled_no_action (uc : UniversalCommitter) (dag : DagView)
    (queue : List TrustedCommit) (budget : Nat) (hgc : dag.gc_enabled = false) :
    uc.try_decide_synced dag queue budget = some ([], queue) := by
  simp [UniversalCommitter.try_decide_synced, hgc]

/-! ## Concrete instances used by witnesses and counterexamples -/

def ucSimple : UniversalCommitter := ⟨[], some 1⟩

def dagNoGc : DagView :=
  { highest_accepted_round := 5, gc_enabled := false, last_commit_index := 10,
    get_block := fun _ => none }

def dagGc : DagView :=
  { highest_accepted_round := 5, gc_enabled := true, last_commit_index := 10,
    get_block := fun s => some ⟨s⟩ }

theorem c8_witness :
    ucSimple.try_decide_synced dagNoGc [⟨11, ⟨1, 0⟩⟩] 0 = some ([], [⟨11, ⟨1, 0⟩⟩]) :=
  c8_gc_disabled_no_action ucSimple dagNoGc [⟨11, ⟨1, 0⟩⟩] 0 rfl

/-! ## C6: budget 0 -/

/-- Counterexample to C6 as stated: with GC disabled the call with budget `0`
returns a value (the empty list and the untouched queue) instead of failing,
because the GC check precedes the budget assertion. -/
theorem c6_counterexample :
    ucSimple.try_decide_synced dagNoGc [] 0 = some ([], [])
    ∧ ucSimple.try_decide_synced dagNoGc [] 0 ≠ none := by
  constructor
  · rfl
  · intro h; simp [UniversalCommitter.try_decide_synced, dagNoGc] at h

/-- C6 amended: for every DAG state **with GC enabled** and every queue,
calling `try_decide_synced` with budget `0` fails (the assertion fires). -/
theorem c6_amended_budget_zero_fails (uc : UniversalCommitter) (dag : DagView)
    (queue : List TrustedCommit) (hgc : dag.gc_enabled = true) :
    uc.try_decide_synced dag queue 0 = none := by
  simp [UniversalCommitter.try_decide_synced, hgc]

theorem c6_witness :
    ucSimple.try_decide_synced dagGc [⟨11, ⟨1, 0⟩⟩] 0 = none :=
  c6_amended_budget_zero_fails ucSimple dagGc [⟨11, ⟨1, 0⟩⟩] rfl

/-! ## C3: a gap in the synced commit stream fails fatally -/

/-- C3: with GC enabled and a positive budget, if after discarding the
already-applied commits the queue front's index is not `last_commit_index + 1`,
`try_decide_synced` fails fatally instead of returning. -/
theorem c3_synced_gap_fails (uc : UniversalCommitter) (dag : DagView)
    (queue : List TrustedCommit) (budget : Nat) (c : TrustedCommit)
    (hgc : dag.gc_enabled = true) (hb : budget ≠ 0)
    (hhead : (dropApplied dag.last_commit_index queue).head? = some c)
    (hgap : c.index ≠ dag.last_commit_index + 1) :
    uc.try_decide_synced dag queue budget = none := by
  simp [UniversalCommitter.try_decide_synced, hgc, hb,
        drainApplied_of_gap dag.last_commit_index queue c hhead hgap]

theorem c3_witness :
    ucSimple.try_decide_synced dagGc [⟨9, ⟨1, 0⟩⟩, ⟨12, ⟨1, 3⟩⟩] 3 = none := by
  apply c3_synced_gap_fails ucSimple dagGc [⟨9, ⟨1, 0⟩⟩, ⟨12, ⟨1, 3⟩⟩] 3 ⟨12, ⟨1, 3⟩⟩
  · rfl
  · decide
  · decide
  · decide

/-! ## C2: synced happy path -/

/-- C2: with GC enabled, a positive budget and no index gap after discarding
already-applied commits, `try_decide_synced` discards the applied prefix,
resolves and commits exactly `min budget |remaining|` leaders from the front,
and leaves the queue holding exactly the unconsumed suffix. -/
theorem c2_synced_happy (uc : UniversalCommitter) (dag : DagView)
    (queue : List TrustedCommit) (budget : Nat) (out : List DecidedLeader)
    (hgc : dag.gc_enabled = true) (hb : budget ≠ 0)
    (hnogap : ∀ c, (dropApplied dag.last_commit_index queue).head? = some c →
        c.index = dag.last_commit_index + 1)
    (hout : resolveLeaders dag
        ((dropApplied dag.last_commit_index queue).take budget) = some out) :
    uc.try_decide_synced dag queue budget =
      some (out, (dropApplied dag.last_commit_index queue).drop budget)
    ∧ out.length = min budget (dropApplied dag.last_commit_index queue).length := by
  have hdrain := drainApplied_of_no_gap dag.last_commit_index queue hnogap
  constructor
  · unfold UniversalCommitter.try_decide_synced
    rw [hgc, hdrain]
    simp only [Bool.not_true, Bool.false_eq_true, if_false, if_neg hb]
    by_cases hqe : dropApplied dag.last_commit_index queue = []
    · rw [hqe] at hout ⊢
      simp only [List.take_nil, resolveLeaders] at hout
      have : out = [] := by simpa using hout.symm
      simp [this]
    · rw [if_neg (by simpa [List.isEmpty_iff] using hqe)]
      rw [hout]
  · have h1 := resolveLeaders_length dag _ _ hout
    rw [h1, List.length_take]

theorem c2_witness :
    ucSimple.try_decide_synced dagGc
        [⟨9, ⟨1, 0⟩⟩, ⟨10, ⟨1, 1⟩⟩, ⟨11, ⟨1, 2⟩⟩, ⟨12, ⟨1, 3⟩⟩, ⟨13, ⟨2, 0⟩⟩] 3 =
      some ([DecidedLeader.Commit ⟨⟨1, 2⟩⟩, DecidedLeader.Commit ⟨⟨1, 3⟩⟩,
             DecidedLeader.Commit ⟨⟨2, 0⟩⟩],
            (dropApplied dagGc.last_commit_index
              [⟨9, ⟨1, 0⟩⟩, ⟨10, ⟨1, 1⟩⟩, ⟨11, ⟨1, 2⟩⟩, ⟨12, ⟨1, 3⟩⟩, ⟨13, ⟨2, 0⟩⟩]).drop 3)
    ∧ ([DecidedLeader.Commit ⟨⟨1, 2⟩⟩, DecidedLeader.Commit ⟨⟨1, 3⟩⟩,
        DecidedLeader.Commit ⟨⟨2, 0⟩⟩] : List DecidedLeader).length =
      min 3 (dropApplied dagGc.last_commit_index
              [⟨9, ⟨1, 0⟩⟩, ⟨10, ⟨1, 1⟩⟩, ⟨11, ⟨1, 2⟩⟩, ⟨12, ⟨1, 3⟩⟩, ⟨13, ⟨2, 0⟩⟩]).length := by
  apply c2_synced_happy ucSimple dagGc _ 3 _ rfl (by decide)
  · intro c hc
    have hc' : some (⟨11, ⟨1, 2⟩⟩ : TrustedCommit) = some c := hc
    injection hc' with h
    rw [← h]
    decide
  · decide

/-! ## C5: the lowest examined round -/

theorem lastRoundOf_single (last : Slot) : lastRoundOf (some 1) last = last.round + 1 := rfl

theorem lastRoundOf_multi (nl : Option Nat) (last : Slot) (h : nl ≠ some 1) :
    lastRoundOf nl last = last.round := by
  cases nl with
  | none => rfl
  | some n =>
    match n with
    | 0 => rfl
    | 1 => exact absurd rfl h
    | n + 2 => rfl

theorem mem_roundsDesc (lo hi r : Nat) :
    r ∈ roundsDesc lo hi ↔ lo ≤ r ∧ r ≤ hi := by
  unfold roundsDesc
  rw [List.mem_reverse, List.mem_range'_1]
  omega

/-- C5: the round window of `try_decide` reaches down to
`last_decided.round + 1` when the protocol config has a single leader per
round, and to `last_decided.round` otherwise. -/
theorem c5_first_round (uc : UniversalCommitter) (dag : DagView) (last_decided : Slot) :
    uc.try_decide dag last_decided =
      emitDecided (decideLoop uc.committers.reverse last_decided
        (roundsDesc (lastRoundOf uc.mysticeti_num_leaders_per_round last_decided)
          (dag.highest_accepted_round - 2)) []).1
    ∧ (uc.mysticeti_num_leaders_per_round = some 1 →
        lastRoundOf uc.mysticeti_num_leaders_per_round last_decided = last_decided.round + 1)
    ∧ (uc.mysticeti_num_leaders_per_round ≠ some 1 →
        lastRoundOf uc.mysticeti_num_leaders_per_round last_decided = last_decided.round)
    ∧ (∀ r, r ∈ roundsDesc (lastRoundOf uc.mysticeti_num_leaders_per_round last_decided)
          (dag.highest_accepted_round - 2) ↔
        lastRoundOf uc.mysticeti_num_leaders_per_round last_decided ≤ r ∧
          r ≤ dag.highest_accepted_round - 2) := by
  refine ⟨rfl, ?_, ?_, ?_⟩
  · intro h; rw [h]; exact lastRoundOf_single last_decided
  · intro h; exact lastRoundOf_multi _ _ h
  · intro r; exact mem_roundsDesc _ _ r

def ucMulti : UniversalCommitter := ⟨[], none⟩

theorem c5_witness :
    lastRoundOf ucSimple.mysticeti_num_leaders_per_round ⟨5, 0⟩ = 6
    ∧ lastRoundOf ucMulti.mysticeti_num_leaders_per_round ⟨5, 0⟩ = 5 :=
  ⟨(c5_first_round ucSimple dagGc ⟨5, 0⟩).2.1 rfl,
   (c5_first_round ucMulti dagGc ⟨5, 0⟩).2.2.1 (by decide)⟩

/-! ## C9: genesis entries are skipped, not emitted, and do not truncate -/

theorem into_decided_leader_slot (s : LeaderStatus) (dl : DecidedLeader)
    (h : s.into_decided_leader = some dl) : dl.slot = s.slot_ := by
  cases s with
  | Commit b =>
    simp [LeaderStatus.into_decided_leader] at h
    rw [← h]; rfl
  | Skip sl =>
    simp [LeaderStatus.into_decided_leader] at h
    rw [← h]; rfl
  | Undecided sl => simp [LeaderStatus.into_decided_leader] at h

theorem emitDecided_genesis_transparent (s : LeaderStatus) (d : Decision)
    (hs : s.round = GENESIS_ROUND) :
    ∀ xs ys, emitDecided (xs ++ (s, d) :: ys) = emitDecided (xs ++ ys) := by
  intro xs
  induction xs with
  | nil => intro ys; simp [emitDecided, hs]
  | cons x xs ih =>
    intro ys
    obtain ⟨xs_s, xs_d⟩ := x
    simp only [List.cons_append, emitDecided]
    by_cases hx : xs_s.round = GENESIS_ROUND
    · rw [if_pos hx, if_pos hx]; exact ih ys
    · rw [if_neg hx, if_neg hx]
      cases xs_s.into_decided_leader with
      | none => rfl
      | some dl => exact congrArg (dl :: ·) (ih ys)

theorem emitDecided_round_ne_genesis :
    ∀ (l : List (LeaderStatus × Decision)) (dl : DecidedLeader),
      dl ∈ emitDecided l → dl.round ≠ GENESIS_ROUND := by
  intro l
  induction l with
  | nil => intro dl h; simp [emitDecided] at h
  | cons x rest ih =>
    intro dl h
    obtain ⟨s, d⟩ := x
    simp only [emitDecided] at h
    by_cases hs : s.round = GENESIS_ROUND
    · rw [if_pos hs] at h; exact ih dl h
    · rw [if_neg hs] at h
      cases hsd : s.into_decided_leader with
      | none => rw [hsd] at h; simp at h
      | some dl' =>
        rw [hsd] at h
        rcases List.mem_cons.mp h with h1 | h2
        · subst h1
          show dl.slot.round ≠ GENESIS_ROUND
          rw [into_decided_leader_slot s dl hsd]
          exact hs
        · exact ih dl h2

/-- C9: a pending entry at `GENESIS_ROUND` is skipped rather than
terminating the emission walk — it is transparent to the emitted sequence —
and no returned `DecidedLeader` ever has round `GENESIS_ROUND`. -/
theorem c9_genesis_entries_skipped (uc : UniversalCommitter) (dag : DagView)
    (last_decided : Slot) :
    (∀ (xs ys : List (LeaderStatus × Decision)) (s : LeaderStatus) (d : Decision),
        s.round = GENESIS_ROUND →
          emitDecided (xs ++ (s, d) :: ys) = emitDecided (xs ++ ys))
    ∧ (∀ dl ∈ uc.try_decide dag last_decided, dl.round ≠ GENESIS_ROUND) := by
  constructor
  · intro xs ys s d hs
    exact emitDecided_genesis_transparent s d hs xs ys
  · intro dl h
    exact emitDecided_round_ne_genesis _ dl h

theorem c9_witness :
    emitDecided ([] ++ (LeaderStatus.Undecided ⟨0, 0⟩, Decision.Direct) ::
        [(LeaderStatus.Commit ⟨⟨1, 0⟩⟩, Decision.Direct)]) =
      emitDecided ([] ++ [(LeaderStatus.Commit ⟨⟨1, 0⟩⟩, Decision.Direct)]) :=
  (c9_genesis_entries_skipped ucSimple dagGc ⟨0, 0⟩).1 [] _ _ _ rfl

/-! ## C10: `get_leaders` -/

/-- The claim's own description of `get_leaders`: the authorities of exactly
those committers, in construction order, whose `elect_leader` returns a
slot; the rest are silently omitted. -/
def getLeadersClaim (round : Nat) : List BaseCommitter → List Nat
  | [] => []
  | c :: rest =>
    match c.elect_leader round with
    | some s => s.authority :: getLeadersClaim round rest
    | none => getLeadersClaim round rest

/-- C10: `get_leaders` returns exactly the authorities of the committers that
elect a leader at the round, in construction order, so the result can be
shorter than the committer list (and possibly empty). -/
theorem c10_get_leaders (uc : UniversalCommitter) (round : Nat) :
    uc.get_leaders round = getLeadersClaim round uc.committers
    ∧ (uc.get_leaders round).length ≤ uc.committers.length := by
  have hmain : ∀ cs : List BaseCommitter,
      ((cs.filterMap (fun c => c.elect_leader round)).map Slot.authority =
        getLeadersClaim round cs)
      ∧ (getLeadersClaim round cs).length ≤ cs.length := by
    intro cs
    induction cs with
    | nil => exact ⟨rfl, Nat.le_refl 0⟩
    | cons c rest ih =>
      constructor
      · rw [List.filterMap_cons]
        cases he : c.elect_leader round with
        | none => simpa [getLeadersClaim, he] using ih.1
        | some s => simp [getLeadersClaim, he, ih.1]
      · cases he : c.elect_leader round with
        | none =>
          simp only [getLeadersClaim, he, List.length_cons]
          exact Nat.le_succ_of_le ih.2
        | some s =>
          simp only [getLeadersClaim, he, List.length_cons]
          exact Nat.succ_le_succ ih.2
  refine ⟨(hmain uc.committers).1, ?_⟩
  have h1 := (hmain uc.committers).1
  show (uc.get_leaders round).length ≤ _
  unfold UniversalCommitter.get_leaders
  rw [h1]
  exact (hmain uc.committers).2

/-! ## C4: ordering of the output -/

def bcSeat (a : Nat) : BaseCommitter :=
  { elect_leader := fun r => if r = 1 then some ⟨1, a⟩ else none,
    try_direct_decide := fun s => .Commit ⟨s⟩,
    try_indirect_decide := fun s _ => .Undecided s }

/-- Two multi-leader seats at round 1, in construction order seat 0 then
seat 1 (the builder's `leader_offset` order). -/
def ucTwoLeaders : UniversalCommitter := ⟨[bcSeat 0, bcSeat 1], some 2⟩

def dagH3 : DagView :=
  { highest_accepted_round := 3, gc_enabled := true, last_commit_index := 0,
    get_block := fun _ => none }

/-- Counterexample to C4 as stated: with two decided leaders at round 1, the
output lists seat 0 before seat 1 — the construction order of the
BaseCommitters, not its reverse — and the output rounds are not strictly
ascending. -/
theorem c4_counterexample :
    ucTwoLeaders.try_decide dagH3 ⟨0, 99⟩ =
      [DecidedLeader.Commit ⟨⟨1, 0⟩⟩, DecidedLeader.Commit ⟨⟨1, 1⟩⟩]
    ∧ ucTwoLeaders.try_decide dagH3 ⟨0, 99⟩ ≠
      [DecidedLeader.Commit ⟨⟨1, 1⟩⟩, DecidedLeader.Commit ⟨⟨1, 0⟩⟩]
    ∧ ¬ List.Pairwise (· < ·)
        ((ucTwoLeaders.try_decide dagH3 ⟨0, 99⟩).map DecidedLeader.round) := by
  refine ⟨?_, ?_, ?_⟩ <;> decide

/-- The facts about the base-committer interface the ordering rests on: an
elected slot is at the queried round, and both decision rules answer about
the slot they were asked about. -/
def WfCommitter (c : BaseCommitter) : Prop :=
  (∀ r s, c.elect_leader r = some s → s.round = r)
  ∧ (∀ s, (c.try_direct_decide s).slot_ = s)
  ∧ (∀ s anchors, (c.try_indirect_decide s anchors).slot_ = s)

def WfUC (uc : UniversalCommitter) : Prop := ∀ c ∈ uc.committers, WfCommitter c

theorem pairwise_of_all {α : Type} {R : α → α → Prop} :
    ∀ {l : List α}, (∀ a ∈ l, ∀ b ∈ l, R a b) → l.Pairwise R := by
  intro l
  induction l with
  | nil => intro _; exact List.Pairwise.nil
  | cons a rest ih =>
    intro h
    refine List.Pairwise.cons ?_ (ih ?_)
    · intro b hb; exact h a (by simp) b (by simp [hb])
    · intro x hx y hy; exact h x (by simp [hx]) y (by simp [hy])

/-- Every entry `processRound` pushes is at the processed round. -/
theorem processRound_entries (cs : List BaseCommitter) (last : Slot) (r : Nat)
    (hwf : ∀ c ∈ cs, WfCommitter c) :
    ∀ acc acc2 b, processRound cs last r acc = (acc2, b) →
      ∃ new, acc2 = new ++ acc ∧ ∀ e ∈ new, e.1.round = r := by
  induction cs with
  | nil =>
    intro acc acc2 b h
    unfold processRound at h
    cases h
    exact ⟨[], rfl, by simp⟩
  | cons c rest ih =>
    intro acc acc2 b h
    have hc : WfCommitter c := hwf c (by simp)
    have hrest : ∀ c' ∈ rest, WfCommitter c' := fun c' h' => hwf c' (by simp [h'])
    unfold processRound at h
    cases he : c.elect_leader r with
    | none =>
      rw [he] at h
      exact ih hrest acc acc2 b h
    | some s =>
      rw [he] at h
      dsimp only at h
      have hsr : s.round = r := hc.1 r s he
      by_cases hs : s = last
      · rw [if_pos hs] at h
        cases h
        exact ⟨[], rfl, by simp⟩
      · rw [if_neg hs] at h
        by_cases hd : (c.try_direct_decide s).is_decided = true
        · rw [if_pos hd] at h
          obtain ⟨new, hnew, hr⟩ := ih hrest _ acc2 b h
          refine ⟨new ++ [(c.try_direct_decide s, Decision.Direct)], by simpa using hnew, ?_⟩
          intro e he'
          rcases List.mem_append.mp he' with h1 | h2
          · exact hr e h1
          · have heq : e = (c.try_direct_decide s, Decision.Direct) := by simpa using h2
            subst heq
            show (c.try_direct_decide s).slot_.round = r
            rw [hc.2.1 s]
            exact hsr
        · rw [if_neg hd] at h
          obtain ⟨new, hnew, hr⟩ := ih hrest _ acc2 b h
          refine ⟨new ++ [(c.try_indirect_decide s (acc.map Prod.fst), Decision.Indirect)],
            by simpa using hnew, ?_⟩
          intro e he'
          rcases List.mem_append.mp he' with h1 | h2
          · exact hr e h1
          · have heq : e = (c.try_indirect_decide s (acc.map Prod.fst), Decision.Indirect) := by
              simpa using h2
            subst heq
            show (c.try_indirect_decide s (acc.map Prod.fst)).slot_.round = r
            rw [hc.2.2 s]
            exact hsr

/-- `decideLoop` only ever prepends entries, at rounds from the window. -/
theorem decideLoop_entries (cs : List BaseCommitter) (last : Slot)
    (hwf : ∀ c ∈ cs, WfCommitter c) :
    ∀ (rounds : List Nat) (acc acc2 : List (LeaderStatus × Decision)) (b : Bool),
      decideLoop cs last rounds acc = (acc2, b) →
      ∃ new, acc2 = new ++ acc ∧ ∀ e ∈ new, e.1.round ∈ rounds := by
  intro rounds
  induction rounds with
  | nil =>
    intro acc acc2 b h
    unfold decideLoop at h
    cases h
    exact ⟨[], rfl, by simp⟩
  | cons r rest ih =>
    intro acc acc2 b h
    unfold decideLoop at h
    cases hp : processRound cs last r acc with
    | mk a2 flag =>
      rw [hp] at h
      obtain ⟨new1, hnew1, hr1⟩ := processRound_entries cs last r hwf acc a2 flag hp
      cases flag with
      | true =>
        dsimp only at h
        cases h
        exact ⟨new1, hnew1, fun e he => by simp [hr1 e he]⟩
      | false =>
        dsimp only at h
        obtain ⟨new2, hnew2, hr2⟩ := ih a2 acc2 b h
        refine ⟨new2 ++ new1, by rw [hnew2, hnew1, List.append_assoc], ?_⟩
        intro e he
        rcases List.mem_append.mp he with h1 | h2
        · simp [hr2 e h1]
        · simp [hr1 e h2]

/-- The deque built by `decideLoop` over a strictly descending round window
has weakly ascending entry rounds. -/
theorem decideLoop_sorted (cs : List BaseCommitter) (last : Slot)
    (hwf : ∀ c ∈ cs, WfCommitter c) :
    ∀ (rounds : List Nat) (acc acc2 : List (LeaderStatus × Decision)) (b : Bool),
      List.Pairwise (· > ·) rounds →
      (∀ e ∈ acc, ∀ r ∈ rounds, r ≤ e.1.round) →
      List.Pairwise (fun e1 e2 => e1.1.round ≤ e2.1.round) acc →
      decideLoop cs last rounds acc = (acc2, b) →
      List.Pairwise (fun e1 e2 => e1.1.round ≤ e2.1.round) acc2 := by
  intro rounds
  induction rounds with
  | nil =>
    intro acc acc2 b _ _ hs h
    unfold decideLoop at h
    cases h
    exact hs
  | cons r rest ih =>
    intro acc acc2 b hdesc hge hs h
    unfold decideLoop at h
    cases hp : processRound cs last r acc with
    | mk a2 flag =>
      rw [hp] at h
      obtain ⟨new, hnew, hnr⟩ := processRound_entries cs last r hwf acc a2 flag hp
      have hs2 : List.Pairwise (fun e1 e2 => e1.1.round ≤ e2.1.round) a2 := by
        rw [hnew]
        rw [List.pairwise_append]
        refine ⟨pairwise_of_all ?_, hs, ?_⟩
        · intro e1 h1 e2 h2
          rw [hnr e1 h1, hnr e2 h2]
        · intro e1 h1 e2 h2
          rw [hnr e1 h1]
          exact hge e2 h2 r (by simp)
      cases flag with
      | true =>
        dsimp only at h
        cases h
        exact hs2
      | false =>
        dsimp only at h
        refine ih a2 acc2 b (List.Pairwise.sublist (List.sublist_cons_self r rest) hdesc)
          ?_ hs2 h
        intro e he r2 hr2
        rw [hnew] at he
        rcases List.mem_append.mp he with h1 | h2
        · rw [hnr e h1]
          have h3 : r > r2 := (List.pairwise_cons.mp hdesc).1 r2 hr2
          exact Nat.le_of_lt h3
        · exact hge e h2 r2 (by simp [hr2])

theorem emitDecided_round_mem :
    ∀ (l : List (LeaderStatus × Decision)) (dl : DecidedLeader),
      dl ∈ emitDecided l → ∃ e ∈ l, e.1.round = dl.round := by
  intro l
  induction l with
  | nil => intro dl h; simp [emitDecided] at h
  | cons x rest ih =>
    intro dl h
    obtain ⟨s, d⟩ := x
    simp only [emitDecided] at h
    by_cases hs : s.round = GENESIS_ROUND
    · rw [if_pos hs] at h
      obtain ⟨e, he, hr⟩ := ih dl h
      exact ⟨e, by simp [he], hr⟩
    · rw [if_neg hs] at h
      cases hsd : s.into_decided_leader with
      | none => rw [hsd] at h; simp at h
      | some dl' =>
        rw [hsd] at h
        rcases List.mem_cons.mp h with h1 | h2
        · subst h1
          refine ⟨(s, d), by simp, ?_⟩
          show s.slot_.round = dl.slot.round
          rw [into_decided_leader_slot s dl hsd]
        · obtain ⟨e, he, hr⟩ := ih dl h2
          exact ⟨e, by simp [he], hr⟩

theorem emitDecided_sorted :
    ∀ (l : List (LeaderStatus × Decision)),
      List.Pairwise (fun e1 e2 => e1.1.round ≤ e2.1.round) l →
      List.Pairwise (· ≤ ·) ((emitDecided l).map DecidedLeader.round) := by
  intro l
  induction l with
  | nil => intro _; simp [emitDecided]
  | cons x rest ih =>
    intro hp
    obtain ⟨s, d⟩ := x
    obtain ⟨hhead, htail⟩ := List.pairwise_cons.mp hp
    simp only [emitDecided]
    by_cases hs : s.round = GENESIS_ROUND
    · rw [if_pos hs]; exact ih htail
    · rw [if_neg hs]
      cases hsd : s.into_decided_leader with
      | none => simp
      | some dl =>
        simp only [List.map_cons]
        refine List.Pairwise.cons ?_ (ih htail)
        intro rd hrd
        simp only [List.mem_map] at hrd
        obtain ⟨dl', hdl', hrd'⟩ := hrd
        obtain ⟨e, he, hre⟩ := emitDecided_round_mem rest dl' hdl'
        have h1 : s.round ≤ e.1.round := hhead e he
        have h2 : dl.round = s.round := by
          show dl.slot.round = s.slot_.round
          rw [into_decided_leader_slot s dl hsd]
        rw [← hrd', ← hre, h2]
        exact h1

theorem roundsDesc_sorted (lo hi : Nat) : List.Pairwise (· > ·) (roundsDesc lo hi) := by
  unfold roundsDesc
  rw [List.pairwise_reverse]
  exact List.pairwise_lt_range' lo (hi + 1 - lo)

/-- The entries one round contributes, described over the committers in
construction order: seat `i` is decided (directly, or indirectly against the
entries of the later seats and the earlier accumulator); seats that elect no
leader are omitted. -/
def seatEntries (last : Slot) (r : Nat) (anchors0 : List LeaderStatus) :
    List BaseCommitter → List (LeaderStatus × Decision)
  | [] => []
  | c :: rest =>
    match c.elect_leader r with
    | none => seatEntries last r anchors0 rest
    | some s =>
      if (c.try_direct_decide s).is_decided then
        (c.try_direct_decide s, Decision.Direct) :: seatEntries last r anchors0 rest
      else
        (c.try_indirect_decide s
            ((seatEntries last r anchors0 rest).map Prod.fst ++ anchors0),
          Decision.Indirect) :: seatEntries last r anchors0 rest

theorem processRound_cons (c : BaseCommitter) (cs : List BaseCommitter) (last : Slot)
    (r : Nat) (acc : List (LeaderStatus × Decision)) :
    processRound (c :: cs) last r acc =
      match c.elect_leader r with
      | none => processRound cs last r acc
      | some slot =>
        if slot = last then (acc, true)
        else
          if (c.try_direct_decide slot).is_decided then
            processRound cs last r ((c.try_direct_decide slot, Decision.Direct) :: acc)
          else
            processRound cs last r
              ((c.try_indirect_decide slot (acc.map Prod.fst), Decision.Indirect) :: acc) := rfl

theorem processRound_cons_none (c : BaseCommitter) (cs : List BaseCommitter) (last : Slot)
    (r : Nat) (acc : List (LeaderStatus × Decision)) (he : c.elect_leader r = none) :
    processRound (c :: cs) last r acc = processRound cs last r acc := by
  rw [processRound_cons, he]

theorem processRound_cons_break (c : BaseCommitter) (cs : List BaseCommitter) (last : Slot)
    (r : Nat) (acc : List (LeaderStatus × Decision)) (he : c.elect_leader r = some last) :
    processRound (c :: cs) last r acc = (acc, true) := by
  rw [processRound_cons, he]
  dsimp only
  rw [if_pos rfl]

theorem processRound_cons_direct (c : BaseCommitter) (cs : List BaseCommitter) (last : Slot)
    (r : Nat) (acc : List (LeaderStatus × Decision)) (s : Slot)
    (he : c.elect_leader r = some s) (hs : s ≠ last)
    (hd : (c.try_direct_decide s).is_decided = true) :
    processRound (c :: cs) last r acc =
      processRound cs last r ((c.try_direct_decide s, Decision.Direct) :: acc) := by
  rw [processRound_cons, he]
  dsimp only
  rw [if_neg hs, if_pos hd]

theorem processRound_cons_indirect (c : BaseCommitter) (cs : List BaseCommitter) (last : Slot)
    (r : Nat) (acc : List (LeaderStatus × Decision)) (s : Slot)
    (he : c.elect_leader r = some s) (hs : s ≠ last)
    (hd : ¬ (c.try_direct_decide s).is_decided = true) :
    processRound (c :: cs) last r acc =
      processRound cs last r
        ((c.try_indirect_decide s (acc.map Prod.fst), Decision.Indirect) :: acc) := by
  rw [processRound_cons, he]
  dsimp only
  rw [if_neg hs, if_neg hd]

theorem seatEntries_cons (last : Slot) (r : Nat) (anchors0 : List LeaderStatus)
    (c : BaseCommitter) (rest : List BaseCommitter) :
    seatEntries last r anchors0 (c :: rest) =
      match c.elect_leader r with
      | none => seatEntries last r anchors0 rest
      | some s =>
        if (c.try_direct_decide s).is_decided then
          (c.try_direct_decide s, Decision.Direct) :: seatEntries last r anchors0 rest
        else
          (c.try_indirect_decide s
              ((seatEntries last r anchors0 rest).map Prod.fst ++ anchors0),
            Decision.Indirect) :: seatEntries last r anchors0 rest := rfl

theorem processRound_append (l1 l2 : List BaseCommitter) (last : Slot) (r : Nat) :
    ∀ acc, processRound (l1 ++ l2) last r acc =
      match processRound l1 last r acc with
      | (a, true) => (a, true)
      | (a, false) => processRound l2 last r a := by
  induction l1 with
  | nil => intro acc; rfl
  | cons c rest ih =>
    intro acc
    rw [List.cons_append]
    cases he : c.elect_leader r with
    | none =>
      rw [processRound_cons_none c (rest ++ l2) last r acc he,
          processRound_cons_none c rest last r acc he, ih acc]
    | some s =>
      by_cases hs : s = last
      · rw [hs] at he
        rw [processRound_cons_break c (rest ++ l2) last r acc he,
            processRound_cons_break c rest last r acc he]
      · by_cases hd : (c.try_direct_decide s).is_decided = true
        · rw [processRound_cons_direct c (rest ++ l2) last r acc s he hs hd,
              processRound_cons_direct c rest last r acc s he hs hd, ih]
        · rw [processRound_cons_indirect c (rest ++ l2) last r acc s he hs hd,
              processRound_cons_indirect c rest last r acc s he hs hd, ih]

/-- When no committer elects `last_decided` at round `r`, the inner loop does
not break, and what it prepends is exactly `seatEntries` of the committers in
construction order: the reversed iteration plus the front-push put the seats
back into construction order within the round. -/
theorem processRound_reverse_seatEntries (cs : List BaseCommitter) (last : Slot)
    (r : Nat) (hnb : ∀ c ∈ cs, c.elect_leader r ≠ some last) :
    ∀ acc, processRound cs.reverse last r acc =
      (seatEntries last r (acc.map Prod.fst) cs ++ acc, false) := by
  induction cs with
  | nil => intro acc; simp [processRound, seatEntries]
  | cons c rest ih =>
    intro acc
    have hc : c.elect_leader r ≠ some last := hnb c (by simp)
    have hrest : ∀ c' ∈ rest, c'.elect_leader r ≠ some last :=
      fun c' h' => hnb c' (by simp [h'])
    rw [List.reverse_cons, processRound_append, ih hrest acc]
    dsimp only
    cases he : c.elect_leader r with
    | none =>
      rw [processRound_cons_none c [] last r _ he, seatEntries_cons, he]
      rfl
    | some s =>
      have hs : s ≠ last := by
        intro hx
        exact hc (by rw [he, hx])
      by_cases hd : (c.try_direct_decide s).is_decided = true
      · rw [processRound_cons_direct c [] last r _ s he hs hd, seatEntries_cons, he]
        dsimp only
        rw [if_pos hd]
        rfl
      · rw [processRound_cons_indirect c [] last r _ s he hs hd, seatEntries_cons, he]
        dsimp only
        rw [if_neg hd, List.map_append]
        rfl

/-- C4 amended: the output of `try_decide` is ascending (non-strictly) by
round, and within one round the relative order of the entries matches the
**construction order** of their BaseCommitters (seat 0 before seat 1), not
the reverse. -/
theorem c4_amended_ordering (uc : UniversalCommitter) (dag : DagView)
    (last_decided : Slot) (hwf : WfUC uc) :
    List.Pairwise (· ≤ ·) ((uc.try_decide dag last_decided).map DecidedLeader.round)
    ∧ (∀ r acc, (∀ c ∈ uc.committers, c.elect_leader r ≠ some last_decided) →
        processRound uc.committers.reverse last_decided r acc =
          (seatEntries last_decided r (acc.map Prod.fst) uc.committers ++ acc, false)) := by
  constructor
  · have hwfrev : ∀ c ∈ uc.committers.reverse, WfCommitter c := by
      intro c hc
      exact hwf c (List.mem_reverse.mp hc)
    cases hdl : decideLoop uc.committers.reverse last_decided
        (roundsDesc (lastRoundOf uc.mysticeti_num_leaders_per_round last_decided)
          (dag.highest_accepted_round - 2)) [] with
    | mk acc2 b =>
      have hsorted := decideLoop_sorted _ _ hwfrev _ [] acc2 b
        (roundsDesc_sorted _ _) (by simp) List.Pairwise.nil hdl
      have h0 : uc.try_decide dag last_decided =
          emitDecided (decideLoop uc.committers.reverse last_decided
            (roundsDesc (lastRoundOf uc.mysticeti_num_leaders_per_round last_decided)
              (dag.highest_accepted_round - 2)) []).1 := rfl
      rw [h0, hdl]
      exact emitDecided_sorted acc2 hsorted
  · intro r acc hnb
    exact processRound_reverse_seatEntries uc.committers last_decided r hnb acc

theorem bcSeat_wf (a : Nat) : WfCommitter (bcSeat a) := by
  refine ⟨?_, ?_, ?_⟩
  · intro r s h
    have h' : (if r = 1 then some (⟨1, a⟩ : Slot) else none) = some s := h
    by_cases hr : r = 1
    · rw [if_pos hr] at h'
      injection h' with h2
      rw [← h2, hr]
    · rw [if_neg hr] at h'
      cases h'
  · intro s; rfl
  · intro s anchors; rfl

theorem c4_witness :
    List.Pairwise (· ≤ ·)
      ((ucTwoLeaders.try_decide dagH3 ⟨0, 99⟩).map DecidedLeader.round) := by
  refine (c4_amended_ordering ucTwoLeaders dagH3 ⟨0, 99⟩ ?_).1
  intro c hc
  have h01 : c = bcSeat 0 ∨ c = bcSeat 1 := by simpa [ucTwoLeaders] using hc
  rcases h01 with h | h <;> rw [h] <;> exact bcSeat_wf _

/-! ## C7: resumption and monotone extension -/

theorem range'_concat_one (s n : Nat) :
    List.range' s (n + 1) = List.range' s n ++ [s + n] := by
  have h := @List.range'_concat 1 s n
  simpa using h

theorem range'_split_one (s m n : Nat) :
    List.range' s (m + n) = List.range' s m ++ List.range' (s + m) n := by
  have h := List.range'_append s m n 1
  simp only [Nat.one_mul] at h
  rw [Nat.add_comm m n]
  exact h.symm

/-- Peel off the highest round of a non-empty descending window. -/
theorem roundsDesc_cons_hi (lo m : Nat) (h : lo ≤ m + 1) :
    roundsDesc lo (m + 1) = (m + 1) :: roundsDesc lo m := by
  unfold roundsDesc
  have h1 : m + 1 + 1 - lo = (m + 1 - lo) + 1 := by omega
  rw [h1, range'_concat_one, List.reverse_append]
  have h2 : lo + (m + 1 - lo) = m + 1 := by omega
  rw [h2]
  rfl

/-- Split a descending window at `m + 1`: highest part first. -/
theorem roundsDesc_split (lo m hi : Nat) (h1 : lo ≤ m + 1) (h2 : m ≤ hi) :
    roundsDesc lo hi = roundsDesc (m + 1) hi ++ roundsDesc lo m := by
  unfold roundsDesc
  have h3 : hi + 1 - lo = (m + 1 - lo) + (hi - m) := by omega
  rw [h3, range'_split_one, List.reverse_append]
  have h4 : lo + (m + 1 - lo) = m + 1 := by omega
  rw [h4]
  have h5 : hi + 1 - (m + 1) = hi - m := by omega
  rw [h5]

/-- A full (non-breaking) inner-loop pass means nobody elected
`last_decided`. -/
theorem processRound_false_noElect (last : Slot) (r : Nat) :
    ∀ (cs : List BaseCommitter) (acc a : List (LeaderStatus × Decision)),
      processRound cs last r acc = (a, false) →
      ∀ c ∈ cs, c.elect_leader r ≠ some last := by
  intro cs
  induction cs with
  | nil => intro acc a _ c hc; simp at hc
  | cons c0 rest ih =>
    intro acc a h c hc
    rcases List.mem_cons.mp hc with h1 | h2
    · intro helect
      rw [h1] at helect
      rw [processRound_cons_break c0 rest last r acc helect] at h
      simp at h
    · cases he : c0.elect_leader r with
      | none =>
        rw [processRound_cons_none c0 rest last r acc he] at h
        exact ih acc a h c h2
      | some s =>
        by_cases hs : s = last
        · rw [hs] at he
          rw [processRound_cons_break c0 rest last r acc he] at h
          simp at h
        · by_cases hd : (c0.try_direct_decide s).is_decided = true
          · rw [processRound_cons_direct c0 rest last r acc s he hs hd] at h
            exact ih _ a h c h2
          · rw [processRound_cons_indirect c0 rest last r acc s he hs hd] at h
            exact ih _ a h c h2

/-- The inner loop neither breaks nor depends on `last_decided` when nobody
elects either candidate `last_decided`. -/
theorem processRound_swap (lastA lastB : Slot) (r : Nat) :
    ∀ (cs : List BaseCommitter) (acc : List (LeaderStatus × Decision)),
      (∀ c ∈ cs, c.elect_leader r ≠ some lastA) →
      (∀ c ∈ cs, c.elect_leader r ≠ some lastB) →
      processRound cs lastA r acc = processRound cs lastB r acc ∧
        (processRound cs lastA r acc).2 = false := by
  intro cs
  induction cs with
  | nil => intro acc _ _; exact ⟨rfl, rfl⟩
  | cons c rest ih =>
    intro acc hA hB
    have hAr : ∀ c' ∈ rest, c'.elect_leader r ≠ some lastA := fun c' h' => hA c' (by simp [h'])
    have hBr : ∀ c' ∈ rest, c'.elect_leader r ≠ some lastB := fun c' h' => hB c' (by simp [h'])
    cases he : c.elect_leader r with
    | none =>
      rw [processRound_cons_none c rest lastA r acc he,
          processRound_cons_none c rest lastB r acc he]
      exact ih acc hAr hBr
    | some s =>
      have hsA : s ≠ lastA := by
        intro hx
        exact hA c (by simp) (by rw [he, hx])
      have hsB : s ≠ lastB := by
        intro hx
        exact hB c (by simp) (by rw [he, hx])
      by_cases hd : (c.try_direct_decide s).is_decided = true
      · rw [processRound_cons_direct c rest lastA r acc s he hsA hd,
            processRound_cons_direct c rest lastB r acc s he hsB hd]
        exact ih _ hAr hBr
      · rw [processRound_cons_indirect c rest lastA r acc s he hsA hd,
            processRound_cons_indirect c rest lastB r acc s he hsB hd]
        exact ih _ hAr hBr

theorem decideLoop_cons (cs : List BaseCommitter) (last : Slot) (r : Nat)
    (rest : List Nat) (acc : List (LeaderStatus × Decision)) :
    decideLoop cs last (r :: rest) acc =
      match processRound cs last r acc with
      | (a, true) => (a, true)
      | (a, false) => decideLoop cs last rest a := rfl

theorem decideLoop_append (cs : List BaseCommitter) (last : Slot)
    (R1 R2 : List Nat) :
    ∀ acc, decideLoop cs last (R1 ++ R2) acc =
      match decideLoop cs last R1 acc with
      | (a, true) => (a, true)
      | (a, false) => decideLoop cs last R2 a := by
  induction R1 with
  | nil => intro acc; rfl
  | cons r rest ih =>
    intro acc
    rw [List.cons_append, decideLoop_cons, decideLoop_cons]
    cases hp : processRound cs last r acc with
    | mk a flag =>
      cases flag with
      | true => rfl
      | false =>
        dsimp only
        exact ih a

/-- With a well-formed committer set, no committer can elect a slot from a
strictly lower round, so loops over high windows never break and are
insensitive to `last_decided`. -/
theorem decideLoop_swap_high (cs : List BaseCommitter)
    (hwf : ∀ c ∈ cs, WfCommitter c) (lastA lastB : Slot) :
    ∀ (rounds : List Nat) (acc : List (LeaderStatus × Decision)),
      (∀ r ∈ rounds, lastA.round < r ∧ lastB.round < r) →
      decideLoop cs lastA rounds acc = decideLoop cs lastB rounds acc ∧
        (decideLoop cs lastA rounds acc).2 = false := by
  intro rounds
  induction rounds with
  | nil => intro acc _; exact ⟨rfl, rfl⟩
  | cons r rest ih =>
    intro acc hr
    have hrA : ∀ c ∈ cs, c.elect_leader r ≠ some lastA := by
      intro c hc helect
      have h1 : lastA.round = r := (hwf c hc).1 r lastA helect
      have h2 : lastA.round < r := (hr r (by simp)).1
      rw [h1] at h2
      exact Nat.lt_irrefl r h2
    have hrB : ∀ c ∈ cs, c.elect_leader r ≠ some lastB := by
      intro c hc helect
      have h1 : lastB.round = r := (hwf c hc).1 r lastB helect
      have h2 : lastB.round < r := (hr r (by simp)).2
      rw [h1] at h2
      exact Nat.lt_irrefl r h2
    obtain ⟨hswap, hflag⟩ := processRound_swap lastA lastB r cs acc hrA hrB
    rw [decideLoop_cons, decideLoop_cons, ← hswap]
    cases hp : processRound cs lastA r acc with
    | mk a flag =>
      rw [hp] at hflag
      simp at hflag
      rw [hflag]
      dsimp only
      exact ih a (fun r2 h2 => hr r2 (by simp [h2]))

/-- The inner loop pushes at most one entry per electing committer. -/
theorem processRound_entries_bound (last : Slot) (r : Nat) :
    ∀ (cs : List BaseCommitter) (acc acc2 : List (LeaderStatus × Decision)) (b : Bool),
      processRound cs last r acc = (acc2, b) →
      ∃ new, acc2 = new ++ acc ∧
        new.length ≤ (cs.filter (fun c => (c.elect_leader r).isSome)).length := by
  intro cs
  induction cs with
  | nil =>
    intro acc acc2 b h
    unfold processRound at h
    cases h
    exact ⟨[], rfl, by simp⟩
  | cons c rest ih =>
    intro acc acc2 b h
    cases he : c.elect_leader r with
    | none =>
      rw [processRound_cons_none c rest last r acc he] at h
      obtain ⟨new, hnew, hlen⟩ := ih acc acc2 b h
      refine ⟨new, hnew, ?_⟩
      rw [List.filter_cons]
      simp only [he, Option.isSome_none]
      exact hlen
    | some s =>
      have hfilter : ((c :: rest).filter (fun c => (c.elect_leader r).isSome)).length =
          (rest.filter (fun c => (c.elect_leader r).isSome)).length + 1 := by
        rw [List.filter_cons]
        simp [he]
      by_cases hs : s = last
      · rw [hs] at he
        rw [processRound_cons_break c rest last r acc he] at h
        cases h
        exact ⟨[], rfl, by simp⟩
      · by_cases hd : (c.try_direct_decide s).is_decided = true
        · rw [processRound_cons_direct c rest last r acc s he hs hd] at h
          obtain ⟨new, hnew, hlen⟩ := ih _ acc2 b h
          refine ⟨new ++ [(c.try_direct_decide s, Decision.Direct)], by simpa using hnew, ?_⟩
          rw [hfilter, List.length_append]
          simpa using hlen
        · rw [processRound_cons_indirect c rest last r acc s he hs hd] at h
          obtain ⟨new, hnew, hlen⟩ := ih _ acc2 b h
          refine ⟨new ++ [(c.try_indirect_decide s (acc.map Prod.fst), Decision.Indirect)],
            by simpa using hnew, ?_⟩
          rw [hfilter, List.length_append]
          simpa using hlen

/-- Locating the deque entry that produced a given emitted leader: the deque
splits at an entry projecting to it, and everything behind that entry emits
the remaining suffix. -/
theorem emitDecided_split (d : DecidedLeader) :
    ∀ (l : List (LeaderStatus × Decision)) (P T : List DecidedLeader),
      emitDecided l = P ++ d :: T →
      ∃ l1 e l2, l = l1 ++ e :: l2
        ∧ (e : LeaderStatus × Decision).1.into_decided_leader = some d
        ∧ emitDecided l2 = T
        ∧ (e : LeaderStatus × Decision).1.round ≠ GENESIS_ROUND := by
  intro l
  induction l with
  | nil =>
    intro P T h
    rw [show emitDecided [] = [] from rfl] at h
    cases P <;> simp at h
  | cons x rest ih =>
    intro P T h
    obtain ⟨s, dec⟩ := x
    simp only [emitDecided] at h
    by_cases hs : s.round = GENESIS_ROUND
    · rw [if_pos hs] at h
      obtain ⟨l1, e, l2, h1, h2, h3, h4⟩ := ih P T h
      exact ⟨(s, dec) :: l1, e, l2, by rw [List.cons_append, h1], h2, h3, h4⟩
    · rw [if_neg hs] at h
      cases hsd : s.into_decided_leader with
      | none =>
        rw [hsd] at h
        cases P <;> simp at h
      | some dl =>
        rw [hsd] at h
        cases P with
        | nil =>
          simp only [List.nil_append] at h
          injection h with h1 h2
          exact ⟨[], (s, dec), rest, rfl, by rw [hsd, h1], h2, hs⟩
        | cons p P' =>
          rw [List.cons_append] at h
          injection h with h1 h2
          obtain ⟨l1, e, l2, g1, g2, g3, g4⟩ := ih P' T h2
          exact ⟨(s, dec) :: l1, e, l2, by rw [List.cons_append, g1], g2, g3, g4⟩

/-- Locate an entry of round `r` inside a deque whose front is below `r` and
whose back is above `r`: the split lands in the middle segment. -/
theorem locate_front_by_round (r : Nat) :
    ∀ (B C l1 l2 : List (LeaderStatus × Decision)) (e : LeaderStatus × Decision),
      B ++ C = l1 ++ e :: l2 →
      (∀ x ∈ B, (x : LeaderStatus × Decision).1.round = r) →
      (∀ x ∈ C, r < (x : LeaderStatus × Decision).1.round) →
      e.1.round = r →
      ∃ t u, B = t ++ e :: u ∧ l1 = t ∧ l2 = u ++ C := by
  intro B
  induction B with
  | nil =>
    intro C l1 l2 e h _ hC he
    exfalso
    have hmem : e ∈ C := by
      rw [List.nil_append] at h
      rw [h]
      simp
    have := hC e hmem
    rw [he] at this
    exact Nat.lt_irrefl r this
  | cons b B' ih =>
    intro C l1 l2 e h hB hC he
    cases l1 with
    | nil =>
      rw [List.cons_append, List.nil_append] at h
      injection h with h1 h2
      refine ⟨[], B', ?_, rfl, ?_⟩
      · rw [List.nil_append, h1]
      · rw [h2]
    | cons x l1' =>
      rw [List.cons_append, List.cons_append] at h
      injection h with h1 h2
      obtain ⟨t, u, g1, g2, g3⟩ := ih C l1' l2 e h2 (fun y hy => hB y (by simp [hy])) hC he
      refine ⟨b :: t, u, ?_, ?_, g3⟩
      · rw [List.cons_append, g1]
      · rw [h1, g2]

theorem locate_middle_by_round (r : Nat) :
    ∀ (A B C l1 l2 : List (LeaderStatus × Decision)) (e : LeaderStatus × Decision),
      (A ++ B) ++ C = l1 ++ e :: l2 →
      (∀ x ∈ A, (x : LeaderStatus × Decision).1.round < r) →
      (∀ x ∈ B, (x : LeaderStatus × Decision).1.round = r) →
      (∀ x ∈ C, r < (x : LeaderStatus × Decision).1.round) →
      e.1.round = r →
      ∃ t u, B = t ++ e :: u ∧ l1 = A ++ t ∧ l2 = u ++ C := by
  intro A
  induction A with
  | nil =>
    intro B C l1 l2 e h _ hB hC he
    rw [List.nil_append] at h
    obtain ⟨t, u, g1, g2, g3⟩ := locate_front_by_round r B C l1 l2 e h hB hC he
    exact ⟨t, u, g1, by rw [List.nil_append, g2], g3⟩
  | cons a A' ih =>
    intro B C l1 l2 e h hA hB hC he
    cases l1 with
    | nil =>
      exfalso
      rw [List.cons_append, List.cons_append, List.nil_append] at h
      injection h with h1 _
      have := hA a (by simp)
      rw [h1, he] at this
      exact Nat.lt_irrefl r this
    | cons x l1' =>
      rw [List.cons_append, List.cons_append, List.cons_append] at h
      injection h with h1 h2
      obtain ⟨t, u, g1, g2, g3⟩ := ih B C l1' l2 e h2 (fun y hy => hA y (by simp [hy])) hB hC he
      refine ⟨t, u, g1, ?_, g3⟩
      rw [h1, g2, List.cons_append]

/-- If the inner loop produced the entry `e` somewhere in its pushed block,
then the committer list splits at the committer that pushed `e`: that
committer elected `e`'s slot (which is not `last_decided`), and the
committers before it processed the earlier part of the block without
breaking. -/
theorem processRound_split_at_entry (last : Slot) (r : Nat) :
    ∀ (cs : List BaseCommitter), (∀ c ∈ cs, WfCommitter c) →
      ∀ (acc acc2 : List (LeaderStatus × Decision)) (b : Bool)
        (E1 E2 : List (LeaderStatus × Decision)) (e : LeaderStatus × Decision),
      processRound cs last r acc = (acc2, b) →
      acc2 = (E1 ++ e :: E2) ++ acc →
      ∃ P c Q s, cs = P ++ c :: Q
        ∧ c.elect_leader r = some s
        ∧ s ≠ last
        ∧ e.1.slot_ = s
        ∧ processRound P last r acc = (E2 ++ acc, false) := by
  intro cs
  induction cs with
  | nil =>
    intro _ acc acc2 b E1 E2 e h hsplit
    unfold processRound at h
    injection h with h1 h2
    exfalso
    rw [← h1] at hsplit
    have h3 : (E1 ++ e :: E2) ++ acc = [] ++ acc := by
      rw [List.nil_append, ← hsplit]
    have h4 := List.append_cancel_right h3
    simp at h4
  | cons c0 rest ih =>
    intro hwf acc acc2 b E1 E2 e h hsplit
    have hwfc0 : WfCommitter c0 := hwf c0 (by simp)
    have hwfrest : ∀ c ∈ rest, WfCommitter c := fun c hc => hwf c (by simp [hc])
    cases he : c0.elect_leader r with
    | none =>
      rw [processRound_cons_none c0 rest last r acc he] at h
      obtain ⟨P, c, Q, s, g1, g2, g3, g4, g5⟩ := ih hwfrest acc acc2 b E1 E2 e h hsplit
      refine ⟨c0 :: P, c, Q, s, by rw [g1]; rfl, g2, g3, g4, ?_⟩
      rw [processRound_cons_none c0 P last r acc he]
      exact g5
    | some s0 =>
      by_cases hs0 : s0 = last
      · rw [hs0] at he
        rw [processRound_cons_break c0 rest last r acc he] at h
        injection h with h1 h2
        exfalso
        rw [← h1] at hsplit
        have h3 : (E1 ++ e :: E2) ++ acc = [] ++ acc := by
          rw [List.nil_append, ← hsplit]
        have h4 := List.append_cancel_right h3
        simp at h4
      · by_cases hd : (c0.try_direct_decide s0).is_decided = true
        · rw [processRound_cons_direct c0 rest last r acc s0 he hs0 hd] at h
          obtain ⟨new, hnew, _⟩ := processRound_entries rest last r hwfrest _ acc2 b h
          have hkey : new ++ [(c0.try_direct_decide s0, Decision.Direct)] = E1 ++ e :: E2 := by
            have h5 : (new ++ [(c0.try_direct_decide s0, Decision.Direct)]) ++ acc =
                (E1 ++ e :: E2) ++ acc := by
              rw [List.append_assoc]
              simpa using hnew.symm.trans hsplit
            exact List.append_cancel_right h5
          rcases List.eq_nil_or_concat E2 with hE2 | ⟨E2', y, hE2⟩
          · subst hE2
            have hkey2 : new ++ [(c0.try_direct_decide s0, Decision.Direct)] = E1 ++ [e] := by
              rw [hkey]
            obtain ⟨hnew2, hx⟩ := List.append_inj' hkey2 (by simp)
            have hxe : (c0.try_direct_decide s0, Decision.Direct) = e := by
              injection hx
            refine ⟨[], c0, rest, s0, rfl, he, hs0, ?_, ?_⟩
            · rw [← hxe]
              exact hwfc0.2.1 s0
            · rw [List.nil_append]
              rfl
          · rw [hE2] at hkey
            have hkey2 : new ++ [(c0.try_direct_decide s0, Decision.Direct)] =
                (E1 ++ e :: E2') ++ [y] := by
              rw [hkey, List.concat_eq_append]
              simp
            obtain ⟨hnew2, hxy⟩ := List.append_inj' hkey2 (by simp)
            have hxy2 : (c0.try_direct_decide s0, Decision.Direct) = y := by
              injection hxy
            have hsplit2 : acc2 = (E1 ++ e :: E2') ++
                ((c0.try_direct_decide s0, Decision.Direct) :: acc) := by
              rw [hnew, hnew2]
            obtain ⟨P', c, Q, s, g1, g2, g3, g4, g5⟩ :=
              ih hwfrest _ acc2 b E1 E2' e h hsplit2
            refine ⟨c0 :: P', c, Q, s, by rw [g1]; rfl, g2, g3, g4, ?_⟩
            rw [processRound_cons_direct c0 P' last r acc s0 he hs0 hd, g5, hE2,
                List.concat_eq_append, ← hxy2]
            simp
        · rw [processRound_cons_indirect c0 rest last r acc s0 he hs0 hd] at h
          obtain ⟨new, hnew, _⟩ := processRound_entries rest last r hwfrest _ acc2 b h
          have hkey : new ++
              [(c0.try_indirect_decide s0 (acc.map Prod.fst), Decision.Indirect)] =
              E1 ++ e :: E2 := by
            have h5 : (new ++
                [(c0.try_indirect_decide s0 (acc.map Prod.fst), Decision.Indirect)]) ++ acc =
                (E1 ++ e :: E2) ++ acc := by
              rw [List.append_assoc]
              simpa using hnew.symm.trans hsplit
            exact List.append_cancel_right h5
          rcases List.eq_nil_or_concat E2 with hE2 | ⟨E2', y, hE2⟩
          · subst hE2
            have hkey2 : new ++
                [(c0.try_indirect_decide s0 (acc.map Prod.fst), Decision.Indirect)] =
                E1 ++ [e] := by
              rw [hkey]
            obtain ⟨hnew2, hx⟩ := List.append_inj' hkey2 (by simp)
            have hxe : (c0.try_indirect_decide s0 (acc.map Prod.fst), Decision.Indirect) = e := by
              injection hx
            refine ⟨[], c0, rest, s0, rfl, he, hs0, ?_, ?_⟩
            · rw [← hxe]
              exact hwfc0.2.2 s0 (acc.map Prod.fst)
            · rw [List.nil_append]
              rfl
          · rw [hE2] at hkey
            have hkey2 : new ++
                [(c0.try_indirect_decide s0 (acc.map Prod.fst), Decision.Indirect)] =
                (E1 ++ e :: E2') ++ [y] := by
              rw [hkey, List.concat_eq_append]
              simp
            obtain ⟨hnew2, hxy⟩ := List.append_inj' hkey2 (by simp)
            have hxy2 : (c0.try_indirect_decide s0 (acc.map Prod.fst), Decision.Indirect) = y := by
              injection hxy
            have hsplit2 : acc2 = (E1 ++ e :: E2') ++
                ((c0.try_indirect_decide s0 (acc.map Prod.fst), Decision.Indirect) :: acc) := by
              rw [hnew, hnew2]
            obtain ⟨P', c, Q, s, g1, g2, g3, g4, g5⟩ :=
              ih hwfrest _ acc2 b E1 E2' e h hsplit2
            refine ⟨c0 :: P', c, Q, s, by rw [g1]; rfl, g2, g3, g4, ?_⟩
            rw [processRound_cons_indirect c0 P' last r acc s0 he hs0 hd, g5, hE2,
                List.concat_eq_append, ← hxy2]
            simp

theorem lastRoundOf_ge (nl : Option Nat) (last : Slot) :
    last.round ≤ lastRoundOf nl last := by
  cases nl with
  | none => exact Nat.le_refl _
  | some n =>
    match n with
    | 0 => exact Nat.le_refl _
    | 1 => exact Nat.le_succ _
    | n + 2 => exact Nat.le_refl _

theorem roundsDesc_self (m : Nat) : roundsDesc m m = [m] := by
  unfold roundsDesc
  have h : m + 1 - m = 1 := by omega
  rw [h]
  rfl

/-- Resumption: if `try_decide(s0)` emitted `P ++ d :: T`, then calling again
with `last_decided = d.slot` against the unchanged DAG emits exactly the
remainder `T`.  The hypotheses state facts the real base committers satisfy:
well-formedness, distinctness of the slots elected at one round across
seats, and (in single-leader configurations) that at most one committer
elects per round. -/
theorem try_decide_resume (uc : UniversalCommitter) (dag : DagView) (s0 : Slot)
    (P T : List DecidedLeader) (d : DecidedLeader)
    (hwf : WfUC uc)
    (hdist : ∀ r, (uc.committers.filterMap (fun c => c.elect_leader r)).Nodup)
    (hsingle : uc.mysticeti_num_leaders_per_round = some 1 →
      ∀ r, (uc.committers.filter (fun c => (c.elect_leader r).isSome)).length ≤ 1)
    (hE : uc.try_decide dag s0 = P ++ d :: T) :
    uc.try_decide dag d.slot = T := by
  have hwfrev : ∀ c ∈ uc.committers.reverse, WfCommitter c :=
    fun c hc => hwf c (List.mem_reverse.mp hc)
  have hunfold1 : uc.try_decide dag s0 =
      emitDecided (decideLoop uc.committers.reverse s0
        (roundsDesc (lastRoundOf uc.mysticeti_num_leaders_per_round s0)
          (dag.highest_accepted_round - 2)) []).1 := rfl
  rw [hunfold1] at hE
  cases hD1 : decideLoop uc.committers.reverse s0
      (roundsDesc (lastRoundOf uc.mysticeti_num_leaders_per_round s0)
        (dag.highest_accepted_round - 2)) [] with
  | mk D1 b1 =>
  rw [hD1] at hE
  have hE2 : emitDecided D1 = P ++ d :: T := hE
  obtain ⟨NewAll, hNewAll, hNewAllR⟩ :=
    decideLoop_entries uc.committers.reverse s0 hwfrev _ [] D1 b1 hD1
  rw [List.append_nil] at hNewAll
  obtain ⟨l1, e, l2, hD1split, hinto, hT, hegen⟩ := emitDecided_split d D1 P T hE2
  have hslot_ed : d.slot = e.1.slot_ := into_decided_leader_slot e.1 d hinto
  have he_round : e.1.round = d.round := by
    show e.1.slot_.round = d.slot.round
    rw [hslot_ed]
  have hdpos : d.round ≠ 0 := by
    rw [← he_round]
    exact hegen
  obtain ⟨m, hm⟩ : ∃ m, d.round = m + 1 := ⟨d.round - 1, by omega⟩
  have hmem_e : e ∈ D1 := by
    rw [hD1split]
    simp
  have hwin_e : lastRoundOf uc.mysticeti_num_leaders_per_round s0 ≤ d.round ∧
      d.round ≤ dag.highest_accepted_round - 2 := by
    have h1 : e ∈ NewAll := by
      rw [← hNewAll]
      exact hmem_e
    have h2 := hNewAllR e h1
    rw [he_round] at h2
    exact (mem_roundsDesc _ _ _).mp h2
  have hs0d : s0.round ≤ d.round :=
    Nat.le_trans (lastRoundOf_ge uc.mysticeti_num_leaders_per_round s0) hwin_e.1
  have hwin : roundsDesc (lastRoundOf uc.mysticeti_num_leaders_per_round s0)
      (dag.highest_accepted_round - 2) =
      roundsDesc (d.round + 1) (dag.highest_accepted_round - 2) ++
        roundsDesc (lastRoundOf uc.mysticeti_num_leaders_per_round s0) d.round :=
    roundsDesc_split _ d.round _ (Nat.le_succ_of_le hwin_e.1) hwin_e.2
  rw [hwin, decideLoop_append] at hD1
  cases hHi : decideLoop uc.committers.reverse s0
      (roundsDesc (d.round + 1) (dag.highest_accepted_round - 2)) [] with
  | mk Ahigh bh =>
  rw [hHi] at hD1
  have hdd : d.slot.round = d.round := rfl
  have hrr : ∀ r ∈ roundsDesc (d.round + 1) (dag.highest_accepted_round - 2),
      s0.round < r ∧ d.slot.round < r := by
    intro r hr
    have h3 := (mem_roundsDesc _ _ r).mp hr
    rw [hdd]
    omega
  obtain ⟨hswapHi, hflagHi⟩ := decideLoop_swap_high uc.committers.reverse hwfrev s0 d.slot
    (roundsDesc (d.round + 1) (dag.highest_accepted_round - 2)) [] hrr
  rw [hHi] at hswapHi hflagHi
  have hbh : bh = false := hflagHi
  subst hbh
  dsimp only at hD1
  obtain ⟨NewH, hNewH, hNewHR⟩ :=
    decideLoop_entries uc.committers.reverse s0 hwfrev _ [] Ahigh false hHi
  rw [List.append_nil] at hNewH
  have hAhighR : ∀ x ∈ Ahigh, m + 1 < (x : LeaderStatus × Decision).1.round := by
    intro x hx
    rw [hNewH] at hx
    have h4 := (mem_roundsDesc _ _ _).mp (hNewHR x hx)
    omega
  rw [hm, roundsDesc_cons_hi (lastRoundOf uc.mysticeti_num_leaders_per_round s0) m
    (by omega), decideLoop_cons] at hD1
  cases hPR : processRound uc.committers.reverse s0 (m + 1) Ahigh with
  | mk A3 f3 =>
  rw [hPR] at hD1
  obtain ⟨Enew, hEnew, hEnewR⟩ :=
    processRound_entries uc.committers.reverse s0 (m + 1) hwfrev Ahigh A3 f3 hPR
  have hD1eq : ∃ NewLower, D1 = NewLower ++ (Enew ++ Ahigh) ∧
      ∀ x ∈ NewLower, (x : LeaderStatus × Decision).1.round < m + 1 := by
    cases f3 with
    | true =>
      dsimp only at hD1
      injection hD1 with h1 h2
      refine ⟨[], ?_, by simp⟩
      rw [List.nil_append, ← h1, hEnew]
    | false =>
      dsimp only at hD1
      obtain ⟨NewL, hNewL, hNewLR⟩ :=
        decideLoop_entries uc.committers.reverse s0 hwfrev _ A3 D1 b1 hD1
      refine ⟨NewL, by rw [hNewL, hEnew], ?_⟩
      intro x hx
      have h5 := (mem_roundsDesc _ _ _).mp (hNewLR x hx)
      omega
  obtain ⟨NewLower, hD1low, hNLR⟩ := hD1eq
  have hloc : (NewLower ++ Enew) ++ Ahigh = l1 ++ e :: l2 := by
    rw [List.append_assoc, ← hD1low, hD1split]
  obtain ⟨t, u, hEnewSplit, hl1, hl2⟩ := locate_middle_by_round (m + 1) NewLower Enew Ahigh
    l1 l2 e hloc hNLR hEnewR hAhighR (by rw [he_round, hm])
  by_cases hnum : uc.mysticeti_num_leaders_per_round = some 1
  · obtain ⟨new2, hnew2, hlen2⟩ :=
      processRound_entries_bound s0 (m + 1) uc.committers.reverse Ahigh A3 f3 hPR
    have hEnew_eq : Enew = new2 := by
      apply List.append_cancel_right
      rw [← hEnew, ← hnew2]
    have hcountrev :
        (uc.committers.reverse.filter (fun c => (c.elect_leader (m + 1)).isSome)).length ≤ 1 := by
      rw [List.filter_reverse, List.length_reverse]
      exact hsingle hnum (m + 1)
    have hlen1 : Enew.length ≤ 1 := by
      rw [hEnew_eq]
      exact Nat.le_trans hlen2 hcountrev
    have hu : u = [] := by
      rw [hEnewSplit] at hlen1
      simp only [List.length_append, List.length_cons] at hlen1
      have h6 : u.length = 0 := by omega
      exact List.eq_nil_of_length_eq_zero h6
    have hunfold2 : uc.try_decide dag d.slot =
        emitDecided (decideLoop uc.committers.reverse d.slot
          (roundsDesc (lastRoundOf uc.mysticeti_num_leaders_per_round d.slot)
            (dag.highest_accepted_round - 2)) []).1 := rfl
    rw [hunfold2]
    have hlr2 : lastRoundOf uc.mysticeti_num_leaders_per_round d.slot = d.round + 1 := by
      rw [hnum]
      rfl
    rw [hlr2, ← hswapHi]
    show emitDecided Ahigh = T
    rw [← hT, hl2, hu, List.nil_append]
  · have hlr2 : lastRoundOf uc.mysticeti_num_leaders_per_round d.slot = d.round :=
      lastRoundOf_multi _ _ hnum
    have hunfold2 : uc.try_decide dag d.slot =
        emitDecided (decideLoop uc.committers.reverse d.slot
          (roundsDesc (lastRoundOf uc.mysticeti_num_leaders_per_round d.slot)
            (dag.highest_accepted_round - 2)) []).1 := rfl
    rw [hunfold2, hlr2]
    have hwin2 : roundsDesc d.round (dag.highest_accepted_round - 2) =
        roundsDesc (d.round + 1) (dag.highest_accepted_round - 2) ++
          roundsDesc d.round d.round :=
      roundsDesc_split d.round d.round _ (Nat.le_succ _) hwin_e.2
    rw [hwin2, decideLoop_append, ← hswapHi]
    dsimp only
    rw [roundsDesc_self, decideLoop_cons, hm]
    have hA3 : A3 = (t ++ e :: u) ++ Ahigh := by
      rw [hEnew, hEnewSplit]
    obtain ⟨Pcs, cstar, Q, sstar, hcs, helect, hsne, hslot2, hPfalse⟩ :=
      processRound_split_at_entry s0 (m + 1) uc.committers.reverse hwfrev
        Ahigh A3 f3 t u e hPR hA3
    have helect' : cstar.elect_leader (m + 1) = some d.slot := by
      rw [helect, hslot_ed, hslot2]
    have hPnoS0 := processRound_false_noElect s0 (m + 1) Pcs Ahigh (u ++ Ahigh) hPfalse
    have hPnoD : ∀ c ∈ Pcs, c.elect_leader (m + 1) ≠ some d.slot := by
      intro c hc helect2
      have hnd : (uc.committers.reverse.filterMap
          (fun c => c.elect_leader (m + 1))).Nodup := by
        rw [List.filterMap_reverse, List.nodup_reverse]
        exact hdist (m + 1)
      rw [hcs, List.filterMap_append, List.filterMap_cons, helect'] at hnd
      rw [List.nodup_append] at hnd
      have hdisj := hnd.2.2
      exact hdisj (List.mem_filterMap.mpr ⟨c, hc, helect2⟩) (by simp)
    obtain ⟨hswapP, _⟩ := processRound_swap s0 d.slot (m + 1) Pcs Ahigh hPnoS0 hPnoD
    have hPd : processRound Pcs d.slot (m + 1) Ahigh = (u ++ Ahigh, false) := by
      rw [← hswapP]
      exact hPfalse
    have hfull : processRound uc.committers.reverse d.slot (m + 1) Ahigh =
        (u ++ Ahigh, true) := by
      rw [hcs, processRound_append, hPd]
      dsimp only
      exact processRound_cons_break cstar Q d.slot (m + 1) (u ++ Ahigh) helect'
    rw [hfull]
    dsimp only
    show emitDecided (u ++ Ahigh) = T
    rw [← hT, hl2]

/-- C7: if `try_decide(s0)` returns the non-empty `[d1, …, dk]`, then
`try_decide(dk.slot)` on the unchanged DAG returns `[]`; and against an
extended DAG — here any run whose full `try_decide(s0)` output extends the
old one, which is what the spec's monotonicity invariant for decided leaders
guarantees for a DAG extension — the output of `try_decide(dk.slot)`
concatenated after `[d1, …, dk]` equals the output of the single
`try_decide(s0)`.  The remaining hypotheses record interface facts of the
real base committers: well-formedness, per-round distinctness of elected
slots, and at most one electing committer per round in single-leader
configurations. -/
theorem c7_monotone_extension
    (uc : UniversalCommitter) (dag : DagView) (s0 : Slot)
    (ds : List DecidedLeader) (hne : ds ≠ [])
    (hwf : WfUC uc)
    (hdist : ∀ r, (uc.committers.filterMap (fun c => c.elect_leader r)).Nodup)
    (hsingle : uc.mysticeti_num_leaders_per_round = some 1 →
      ∀ r, (uc.committers.filter (fun c => (c.elect_leader r).isSome)).length ≤ 1)
    (hds : uc.try_decide dag s0 = ds) :
    uc.try_decide dag (ds.getLast hne).slot = []
    ∧ ∀ (uc2 : UniversalCommitter) (dag2 : DagView) (tail : List DecidedLeader),
        WfUC uc2 →
        (∀ r, (uc2.committers.filterMap (fun c => c.elect_leader r)).Nodup) →
        (uc2.mysticeti_num_leaders_per_round = some 1 →
          ∀ r, (uc2.committers.filter (fun c => (c.elect_leader r).isSome)).length ≤ 1) →
        uc2.try_decide dag2 s0 = ds ++ tail →
        ds ++ uc2.try_decide dag2 (ds.getLast hne).slot = uc2.try_decide dag2 s0 := by
  constructor
  · apply try_decide_resume uc dag s0 ds.dropLast [] (ds.getLast hne) hwf hdist hsingle
    rw [hds]
    exact (List.dropLast_append_getLast hne).symm
  · intro uc2 dag2 tail hwf2 hdist2 hsingle2 hfull
    have h2 : uc2.try_decide dag2 (ds.getLast hne).slot = tail := by
      apply try_decide_resume uc2 dag2 s0 ds.dropLast tail (ds.getLast hne) hwf2 hdist2 hsingle2
      rw [hfull]
      conv_lhs => rw [← List.dropLast_append_getLast hne]
      simp
    rw [h2, hfull]

def bcChain : BaseCommitter :=
  { elect_leader := fun r => some ⟨r, 0⟩,
    try_direct_decide := fun s => if s.round ≤ 3 then .Commit ⟨s⟩ else .Undecided s,
    try_indirect_decide := fun s _ => .Undecided s }

def ucChain : UniversalCommitter := ⟨[bcChain], some 1⟩

def dagChain : DagView :=
  { highest_accepted_round := 7, gc_enabled := true, last_commit_index := 0,
    get_block := fun _ => none }

def bcChainExt : BaseCommitter :=
  { elect_leader := fun r => some ⟨r, 0⟩,
    try_direct_decide := fun s => if s.round ≤ 5 then .Commit ⟨s⟩ else .Undecided s,
    try_indirect_decide := fun s _ => .Undecided s }

def ucChainExt : UniversalCommitter := ⟨[bcChainExt], some 1⟩

def dagChainExt : DagView :=
  { highest_accepted_round := 9, gc_enabled := true, last_commit_index := 0,
    get_block := fun _ => none }

theorem bcChain_wf : WfCommitter bcChain := by
  refine ⟨?_, ?_, ?_⟩
  · intro r s h
    have h' : some (⟨r, 0⟩ : Slot) = some s := h
    injection h' with h2
    rw [← h2]
  · intro s
    show (if s.round ≤ 3 then LeaderStatus.Commit ⟨s⟩ else LeaderStatus.Undecided s).slot_ = s
    by_cases hs : s.round ≤ 3
    · rw [if_pos hs]; rfl
    · rw [if_neg hs]; rfl
  · intro s anchors; rfl

theorem bcChainExt_wf : WfCommitter bcChainExt := by
  refine ⟨?_, ?_, ?_⟩
  · intro r s h
    have h' : some (⟨r, 0⟩ : Slot) = some s := h
    injection h' with h2
    rw [← h2]
  · intro s
    show (if s.round ≤ 5 then LeaderStatus.Commit ⟨s⟩ else LeaderStatus.Undecided s).slot_ = s
    by_cases hs : s.round ≤ 5
    · rw [if_pos hs]; rfl
    · rw [if_neg hs]; rfl
  · intro s anchors; rfl

theorem c7_witness :
    ucChain.try_decide dagChain
        (([DecidedLeader.Commit ⟨⟨1, 0⟩⟩, DecidedLeader.Commit ⟨⟨2, 0⟩⟩,
           DecidedLeader.Commit ⟨⟨3, 0⟩⟩] : List DecidedLeader).getLast (by decide)).slot = []
    ∧ [DecidedLeader.Commit ⟨⟨1, 0⟩⟩, DecidedLeader.Commit ⟨⟨2, 0⟩⟩,
       DecidedLeader.Commit ⟨⟨3, 0⟩⟩] ++
        ucChainExt.try_decide dagChainExt
          (([DecidedLeader.Commit ⟨⟨1, 0⟩⟩, DecidedLeader.Commit ⟨⟨2, 0⟩⟩,
             DecidedLeader.Commit ⟨⟨3, 0⟩⟩] : List DecidedLeader).getLast (by decide)).slot =
      ucChainExt.try_decide dagChainExt ⟨0, 0⟩ := by
  have hwf1 : WfUC ucChain := by
    intro c hc
    have h01 : c = bcChain := by simpa [ucChain] using hc
    rw [h01]
    exact bcChain_wf
  have hwf2 : WfUC ucChainExt := by
    intro c hc
    have h01 : c = bcChainExt := by simpa [ucChainExt] using hc
    rw [h01]
    exact bcChainExt_wf
  have hdist1 : ∀ r, (ucChain.committers.filterMap (fun c => c.elect_leader r)).Nodup := by
    intro r
    simp [ucChain, bcChain, List.filterMap_cons]
  have hdist2 : ∀ r, (ucChainExt.committers.filterMap (fun c => c.elect_leader r)).Nodup := by
    intro r
    simp [ucChainExt, bcChainExt, List.filterMap_cons]
  have hsingle1 : ucChain.mysticeti_num_leaders_per_round = some 1 →
      ∀ r, (ucChain.committers.filter (fun c => (c.elect_leader r).isSome)).length ≤ 1 := by
    intro _ r
    have hle := List.length_filter_le (fun c => (c.elect_leader r).isSome) ucChain.committers
    simpa [ucChain] using hle
  have hsingle2 : ucChainExt.mysticeti_num_leaders_per_round = some 1 →
      ∀ r, (ucChainExt.committers.filter (fun c => (c.elect_leader r).isSome)).length ≤ 1 := by
    intro _ r
    have hle := List.length_filter_le (fun c => (c.elect_leader r).isSome) ucChainExt.committers
    simpa [ucChainExt] using hle
  have h := c7_monotone_extension ucChain dagChain ⟨0, 0⟩
    [DecidedLeader.Commit ⟨⟨1, 0⟩⟩, DecidedLeader.Commit ⟨⟨2, 0⟩⟩,
     DecidedLeader.Commit ⟨⟨3, 0⟩⟩] (by decide) hwf1 hdist1 hsingle1 (by decide)
  exact ⟨h.1, h.2 ucChainExt dagChainExt
    [DecidedLeader.Commit ⟨⟨4, 0⟩⟩, DecidedLeader.Commit ⟨⟨5, 0⟩⟩]
    hwf2 hdist2 hsingle2 (by decide)⟩
